import Mathlib

/-!
Verification development for the repo-visualizer repository analyzer
(src/repo_visualizer/analyzer.py and src/repo_visualizer/cli.py).

The Python source defines one class, RepositoryAnalyzer, whose body contains
several successive draft definitions of the same methods; in Python the last
definition of each method in the class body is the effective one.  All
definitions below are shallow embeddings of those effective (last) method
definitions, with paths taken repo-root-relative and forward-slash separated.
Filesystem existence checks (os.path.exists) are modelled against an explicit
list of on-disk paths; this matches the invocation convention repo_path = "."
with the current working directory at the repository root (the CLI default),
under which every os.path.exists / os.path.relpath call in the analyzer
operates on repo-root-relative strings.

String primitives (split, startswith, endswith, lower) are re-implemented
here by structural recursion on the underlying character lists so that every
definition evaluates inside the kernel; each mirrors the corresponding Python
string method.
-/

namespace RepoViz

/-- Splitting a character list at separator positions given by a predicate,
keeping empty pieces: the behaviour of Python str.split(sep) and of
one-character String.splitOn. -/
def splitOnPredAux (p : Char → Bool) : List Char → List Char → List (List Char)
  | acc, [] => [acc.reverse]
  | acc, x :: rest =>
    if p x then acc.reverse :: splitOnPredAux p [] rest
    else splitOnPredAux p (x :: acc) rest

/-- String split on a one-character separator. -/
def strSplitOn (s : String) (c : Char) : List String :=
  (splitOnPredAux (fun x => x = c) [] s.data).map fun l => ⟨l⟩

/-- Python str.split() with no argument: split on whitespace runs and drop
empty pieces. -/
def strSplitWs (s : String) : List String :=
  ((splitOnPredAux (fun x => x.isWhitespace) [] s.data).map
    fun l => (⟨l⟩ : String)).filter fun x => x ≠ ""

/-- Python str.startswith. -/
def strStartsWith (s pre : String) : Bool :=
  pre.data.isPrefixOf s.data

/-- Python str.endswith. -/
def strEndsWith (s suf : String) : Bool :=
  suf.data.isSuffixOf s.data

/-- Joining strings with a separator, as "sep".join(pieces) in Python. -/
def strIntercalate (sep : String) : List String → String
  | [] => ""
  | [x] => x
  | x :: y :: xs => x ++ sep ++ strIntercalate sep (y :: xs)

/-- Python str.lower restricted to the ASCII range, which is all the
analyzer ever lowercases (file extensions). -/
def strToLower (s : String) : String :=
  ⟨s.data.map Char.toLower⟩

/-- Model of os.path.dirname on forward-slash paths: everything before the
last slash, or the empty string when there is no slash. -/
def dirname (p : String) : String :=
  let segs := strSplitOn p '/'
  if segs.length ≤ 1 then "" else strIntercalate "/" segs.dropLast

/-- Model of os.path.basename on forward-slash paths. -/
def baseName (p : String) : String :=
  ((strSplitOn p '/').getLast?).getD ""

/-- Model of os.path.join for two repo-relative components.  Empty components
collapse, matching the os.path semantics after the normalization that every
constructed path in the analyzer subsequently undergoes (os.path.relpath or
os.path.normpath). -/
def joinPath (a b : String) : String :=
  if a = "" then b else if b = "" then a else a ++ "/" ++ b

/-- Model of os.path.join of a base directory with a list of path segments. -/
def joinParts (base : String) (parts : List String) : String :=
  parts.foldl joinPath base

/-- Iterated dirname, used for the leading-dots ascent of relative Python
module references. -/
def dirnameN : Nat → String → String
  | 0, p => p
  | n + 1, p => dirnameN n (dirname p)

/-- Stack-based core of os.path.normpath for relative paths. -/
def normLoop : List String → List String → List String
  | stack, [] => stack.reverse
  | stack, s :: rest =>
    if s = "" || s = "." then normLoop stack rest
    else if s = ".." then
      match stack with
      | [] => normLoop [".."] rest
      | t :: st => if t = ".." then normLoop (".." :: t :: st) rest else normLoop st rest
    else normLoop (s :: stack) rest

/-- Model of os.path.normpath on relative forward-slash paths (the analyzer
never normalizes an absolute path under the repo_path = "." convention). -/
def normPath (p : String) : String :=
  let segs := normLoop [] (strSplitOn p '/')
  if segs.isEmpty then "." else strIntercalate "/" segs

/-- One record of the analyzer inventory self.file_ids: path id, "file" or
"directory" kind, and size in bytes (directories are created with size 0 and,
in the effective code path, never updated). -/
structure FileRec where
  id : String
  ftype : String
  size : Nat
deriving DecidableEq

/-- Membership test of an id in the inventory, modelling the Python
expression (p in self.file_ids). -/
def hasIdL (inv : List FileRec) (p : String) : Bool :=
  inv.any (fun r => r.id == p)

/-- A relationship as first recorded by _add_relationship (analyzer.py:3808),
before strengths are attached. -/
structure Rel where
  source : String
  target : String
  rtype : String
deriving DecidableEq

/-- A consolidated relationship as serialized by _consolidate_relationships
(analyzer.py:3826). -/
structure RelFull where
  source : String
  target : String
  rtype : String
  strength : Nat
deriving DecidableEq

/-- Deduplication keys of the relationship-count dictionary. -/
abbrev RelKey := String × String × String

/-- Lexicographic comparison of character lists by code point. -/
def charListLe : List Char → List Char → Bool
  | [], _ => true
  | _ :: _, [] => false
  | a :: as, b :: bs => if a < b then true else if b < a then false else charListLe as bs

/-- Python string comparison (code-point lexicographic), as used by sorted()
in _add_relationship. -/
def strLe (a b : String) : Bool := charListLe a.data b.data

/-- Key construction of _add_relationship (analyzer.py:3810-3816): symmetric
types sort the endpoint pair, directed types keep it. -/
def relKey (s t ty : String) : RelKey :=
  if ty = "semantic_similarity" || ty = "filesystem_proximity" then
    if strLe s t then (s, t, ty) else (t, s, ty)
  else (s, t, ty)

/-- Lookup in the association-list model of the Python dict
self.relationship_counts. -/
def lookupCount : List (RelKey × Nat) → RelKey → Option Nat
  | [], _ => none
  | (k₁, n) :: rest, k => if k₁ = k then some n else lookupCount rest k

/-- Increment-or-insert on the count dictionary: an existing key is updated in
place, a fresh key is appended with count 1 (dict insertion order). -/
def bumpKey : List (RelKey × Nat) → RelKey → List (RelKey × Nat)
  | [], k => [(k, 1)]
  | (k₁, n) :: rest, k =>
    if k₁ = k then (k₁, n + 1) :: rest else (k₁, n) :: bumpKey rest k

/-- The mutable relationship accumulator of the analyzer instance:
self.relationship_counts and self.relationships. -/
structure RelState where
  counts : List (RelKey × Nat)
  rels : List Rel
deriving DecidableEq

/-- Initial accumulator state. -/
def RelState.empty : RelState := ⟨[], []⟩

/-- Model of _add_relationship (analyzer.py:3808-3824): bump the count of the
canonical key; on first occurrence also append the relationship shape. -/
def addRelationship (st : RelState) (s t ty : String) : RelState :=
  if (lookupCount st.counts (relKey s t ty)).isSome then
    { st with counts := bumpKey st.counts (relKey s t ty) }
  else
    { counts := bumpKey st.counts (relKey s t ty), rels := st.rels ++ [⟨s, t, ty⟩] }

/-- Model of _consolidate_relationships (analyzer.py:3826-3841): one
serialized relationship per recorded shape, with strength read from the count
dictionary (default 1). -/
def consolidate (st : RelState) : List RelFull :=
  st.rels.map fun r =>
    ⟨r.source, r.target, r.rtype,
      (lookupCount st.counts (relKey r.source r.target r.rtype)).getD 1⟩

/-- The base path of _resolve_python_import (analyzer.py:4007-4014): for a
relative import, ascend level directories from the importing file; for an
absolute import, the repository root. -/
def pyBase (level : Nat) (filePath : String) : String :=
  if level > 0 then dirnameN level filePath else ""

/-- Model of _resolve_python_import (analyzer.py:4003-4040).  fs is the list
of paths existing on disk under the repository root; the function probes the
module as a .py file and as a package directory relative to the computed base
(repo root for absolute imports, the ascended directory for relative ones),
with an extra fallback relative to the importing file for relative imports. -/
def resolvePythonImport (fs : List String) (importName filePath : String)
    (level : Nat) : Option String :=
  if fs.contains
      (joinParts (pyBase level filePath) (strSplitOn importName '.') ++ ".py") then
    some (joinParts (pyBase level filePath) (strSplitOn importName '.') ++ ".py")
  else if fs.contains
      (joinPath (joinParts (pyBase level filePath) (strSplitOn importName '.'))
        "__init__.py") then
    some (joinPath (joinParts (pyBase level filePath) (strSplitOn importName '.'))
      "__init__.py")
  else if level > 0 then
    if fs.contains (joinParts (dirname filePath) (strSplitOn importName '.') ++ ".py") then
      some (joinParts (dirname filePath) (strSplitOn importName '.') ++ ".py")
    else none
  else none

/-- Extension probe order of _resolve_js_import (analyzer.py:4075-4084), in
source order. -/
def jsExts : List String :=
  [".js", ".ts", ".jsx", ".tsx", "/index.js", "/index.ts", "/index.jsx", "/index.tsx"]

/-- The normalized candidate path of _resolve_js_import
(analyzer.py:4065-4072): for a root-absolute specifier, the repository root
(modelled ".") joined with the de-slashed specifier; otherwise the importing
file directory joined with the specifier; normalized by os.path.normpath. -/
def jsResolved (importPath filePath : String) : String :=
  if strStartsWith importPath "/" then
    normPath (joinPath "." (⟨importPath.data.drop 1⟩ : String))
  else normPath (joinPath (dirname filePath) importPath)

/-- Model of _resolve_js_import (analyzer.py:4060-4092): bare and scoped
specifiers short-circuit to none; relative specifiers are normalized against
the importing file directory; candidates are probed against the inventory in
jsExts order, then the bare resolved path itself. -/
def resolveJsImport (inv : List FileRec) (importPath filePath : String) :
    Option String :=
  if !(strStartsWith importPath "." || strStartsWith importPath "/") then none
  else
    match jsExts.find? (fun e => hasIdL inv (jsResolved importPath filePath ++ e)) with
    | some e => some (jsResolved importPath filePath ++ e)
    | none =>
      if hasIdL inv (jsResolved importPath filePath) then
        some (jsResolved importPath filePath)
      else none

/-- Probe order asserted by the specification.  Modelled from the spec words
(".js, .jsx, .ts, .tsx, /index.js, /index.jsx, /index.ts, /index.tsx") for
comparison with the source order jsExts; the two differ in the middle. -/
def jsExtsSpec : List String :=
  [".js", ".jsx", ".ts", ".tsx", "/index.js", "/index.jsx", "/index.ts", "/index.tsx"]

/-- The same resolution algorithm as resolveJsImport but probing in the
extension order claimed by the specification; used only to exhibit where the
claimed order and the source order disagree. -/
def resolveJsImportSpecOrder (inv : List FileRec) (importPath filePath : String) :
    Option String :=
  if !(strStartsWith importPath "." || strStartsWith importPath "/") then none
  else
    match jsExtsSpec.find? (fun e => hasIdL inv (jsResolved importPath filePath ++ e)) with
    | some e => some (jsResolved importPath filePath ++ e)
    | none =>
      if hasIdL inv (jsResolved importPath filePath) then
        some (jsResolved importPath filePath)
      else none

/-- First-match probing over the candidate list built from the source order,
with the bare-path fallback; resolveJsImport on a relative specifier is
proved equal to this description. -/
def jsProbe (inv : List FileRec) (resolved : String) : Option String :=
  match (jsExts.map fun e => resolved ++ e).find? (hasIdL inv) with
  | some c => some c
  | none => if hasIdL inv resolved then some resolved else none

/-- One parsed Python import statement, the model of the ast nodes consumed
by _extract_python_imports (analyzer.py:3964-3986): ast.Import carries one
dotted module name per alias, ast.ImportFrom carries an optional module (the
empty string models None), a relative level, and the imported names. -/
inductive PyStmt where
  | imp (name : String)
  | impFrom (module : String) (level : Nat) (names : List String)
deriving DecidableEq

/-- One on-disk source file: its repo-relative path, byte size, and the
parse results of its content under the Python and JS import extractors (the
parsing itself - ast.parse and the regex of _extract_js_imports - is the
model boundary). -/
structure SrcFile where
  path : String
  size : Nat
  pyStmts : List PyStmt
  jsSpecs : List String
deriving DecidableEq

/-- One filesystem object of the repository, in os.walk order (a directory
entry precedes the entries inside it). -/
inductive Entry where
  | dir (path : String)
  | file (f : SrcFile)
deriving DecidableEq

/-- The on-disk repository: all filesystem objects (including ignored and
hidden ones, which exist on disk but are pruned from the walk), plus the
gitignore matcher self.gitignore_spec.match_file. -/
structure Repo where
  entries : List Entry
  gi : String → Bool

/-- Path of an entry. -/
def Entry.path : Entry → String
  | .dir d => d
  | .file f => f.path

/-- All paths existing on disk under the repository root; this is what
os.path.exists sees. -/
def fsPaths (repo : Repo) : List String :=
  repo.entries.map Entry.path

/-- The hard-coded always_ignore set of _is_ignored (analyzer.py:3394-3413). -/
def alwaysIgnore : List String :=
  [".git", "node_modules", ".venv", "venv", "__pycache__", ".pytest_cache",
   "build", "dist", ".next", ".nuxt", "coverage", ".coverage", "*.egg-info",
   ".tox", ".nox", "vendor", ".DS_Store", "Thumbs.db"]

/-- Whether one path segment hits the always_ignore set, either literally or
through the single glob pattern *.egg-info (fnmatch of that pattern is a
suffix test). -/
def isIgnoredSeg (seg : String) : Bool :=
  alwaysIgnore.contains seg || strEndsWith seg ".egg-info"

/-- The parent-directory prefixes checked for a file path by _is_ignored
(analyzer.py:3444-3448): "/".join(parts[:i]) for i in range(1, len(parts)). -/
def parentPrefixes (parts : List String) : List String :=
  ((List.range parts.length).drop 1).map fun i => strIntercalate "/" (parts.take i)

/-- Model of _is_ignored (analyzer.py:3381-3450) with the directory hint
always supplied, as _analyze_files does: any segment in the always-ignore
set, or a gitignore match of the path (with a trailing slash for
directories), or - for files - a gitignore match of any parent directory. -/
def isIgnored (gi : String → Bool) (path : String) (isDir : Bool) : Bool :=
  let parts := strSplitOn path '/'
  if parts.any isIgnoredSeg then true
  else
    let norm := if isDir && !strEndsWith path "/" then path ++ "/" else path
    if gi norm then true
    else if !isDir && parts.length > 1 then
      (parentPrefixes parts).any fun pd => gi (pd ++ "/")
    else false

/-- Whether os.walk reaches (and keeps) directory d: at every level the
directory name is not hidden and the accumulated path is not ignored
(analyzer.py:3605-3616 prunes the walk in place).  The repository root is
always walked. -/
def dirIncluded (gi : String → Bool) (d : String) : Bool :=
  if d = "" then true
  else
    let segs := strSplitOn d '/'
    (List.range segs.length).all fun i =>
      let p := strIntercalate "/" (segs.take (i + 1))
      let nm := (segs.get? i).getD ""
      !(strStartsWith nm ".") && !(isIgnored gi p true)

/-- File extension as computed at analyzer.py:3672-3673 (os.path.splitext,
strip the dot, lowercase). -/
def extOf (name : String) : String :=
  let parts := strSplitOn name '.'
  if parts.length ≤ 1 then "" else strToLower ((parts.getLast?).getD "")

/-- The analyzer state mutated by _analyze_files: the inventory
self.file_ids, the key set of dir_file_map, and the relationship
accumulator.  The values of dir_file_map are only ever consumed by
_update_directory_sizes, which the effective _analyze_files never calls, so
only the keys are modelled. -/
structure AState where
  fileIds : List FileRec
  dirMapKeys : List String
  rst : RelState
deriving DecidableEq

/-- Initial analyzer state. -/
def AState.empty : AState := ⟨[], [], RelState.empty⟩

/-- Model of _handle_import_from_alias (analyzer.py:3988-4001): resolve the
from-module; when it lands on a package __init__, prefer the sibling module
file named by the alias if that file is in the inventory. -/
def handleImportFromAlias (fs : List String) (inv : List FileRec)
    (rst : RelState) (module filePath : String) (level : Nat) (nm : String) :
    RelState :=
  match resolvePythonImport fs module filePath level with
  | none => rst
  | some r =>
    if r = "" then rst
    else if baseName r = "__init__.py" then
      if hasIdL inv (joinPath (dirname r) (nm ++ ".py")) then
        addRelationship rst filePath (joinPath (dirname r) (nm ++ ".py")) "import"
      else addRelationship rst filePath r "import"
    else addRelationship rst filePath r "import"

/-- Processing of one parsed import statement by _extract_python_imports
(analyzer.py:3964-3986); an ImportFrom whose module is None (modelled as the
empty string) is skipped. -/
def processPyStmt (fs : List String) (inv : List FileRec) (filePath : String)
    (rst : RelState) : PyStmt → RelState
  | .imp nm =>
    match resolvePythonImport fs nm filePath 0 with
    | some r => if r = "" then rst else addRelationship rst filePath r "import"
    | none => rst
  | .impFrom module level names =>
    if module = "" then rst
    else names.foldl
      (fun rst nm => handleImportFromAlias fs inv rst module filePath level nm) rst

/-- Model of _extract_python_imports over the parsed statements of one
file. -/
def extractPythonImports (fs : List String) (inv : List FileRec)
    (filePath : String) (stmts : List PyStmt) (rst : RelState) : RelState :=
  stmts.foldl (processPyStmt fs inv filePath) rst

/-- Model of _extract_js_imports (analyzer.py:4042-4058): every non-empty
extracted specifier is resolved; a truthy resolution adds one import
relationship. -/
def extractJsImports (inv : List FileRec) (srcPath : String)
    (specs : List String) (rst : RelState) : RelState :=
  specs.foldl
    (fun rst sp =>
      if sp = "" then rst
      else
        match resolveJsImport inv sp srcPath with
        | some r => if r = "" then rst else addRelationship rst srcPath r "import"
        | none => rst)
    rst

/-- Model of _extract_file_relationships (analyzer.py:3753-3760): dispatch
on the file extension. -/
def extractFileRelationships (fs : List String) (st : AState) (f : SrcFile)
    (ext : String) : RelState :=
  if ext = "py" then extractPythonImports fs st.fileIds f.path f.pyStmts st.rst
  else if ext = "js" || ext = "ts" || ext = "jsx" || ext = "tsx" then
    extractJsImports st.fileIds f.path f.jsSpecs st.rst
  else st.rst

/-- Processing of one walked filesystem object by _analyze_files
(analyzer.py:3589-3722).  Directories: if the walk keeps them, record an
inventory entry of size 0 and a contains edge from the parent when the
parent is already inventoried.  Files: if the walk reaches them and neither
hidden nor ignored, extract import relationships from the content (before
the file itself is added to the inventory, as in the source), then add the
inventory entry and the parent contains edge. -/
def processEntry (fs : List String) (gi : String → Bool) (st : AState) :
    Entry → AState
  | .dir d =>
    if dirIncluded gi d then
      if dirname d ≠ "" && hasIdL (st.fileIds ++ [⟨d, "directory", 0⟩]) (dirname d) then
        ⟨st.fileIds ++ [⟨d, "directory", 0⟩], st.dirMapKeys ++ [d],
          addRelationship st.rst (dirname d) d "contains"⟩
      else
        ⟨st.fileIds ++ [⟨d, "directory", 0⟩], st.dirMapKeys ++ [d], st.rst⟩
    else st
  | .file f =>
    if !dirIncluded gi (dirname f.path) then st
    else if strStartsWith (baseName f.path) "." then st
    else if isIgnored gi f.path false then st
    else if dirname f.path ≠ "" && st.dirMapKeys.contains (dirname f.path) then
      ⟨st.fileIds ++ [⟨f.path, "file", f.size⟩], st.dirMapKeys,
        addRelationship (extractFileRelationships fs st f (extOf (baseName f.path)))
          (dirname f.path) f.path "contains"⟩
    else
      ⟨st.fileIds ++ [⟨f.path, "file", f.size⟩], st.dirMapKeys,
        extractFileRelationships fs st f (extOf (baseName f.path))⟩

/-- Model of _analyze_files: fold the walk over the analyzer state. -/
def analyzeFiles (repo : Repo) : AState :=
  repo.entries.foldl (processEntry (fsPaths repo) repo.gi) AState.empty

/-- The serialized files list (analyzer.py:3236: data["files"] =
list(self.file_ids.values())). -/
def finalFiles (st : AState) : List FileRec := st.fileIds

/-- The serialized relationships list (analyzer.py:3237). -/
def finalRels (st : AState) : List RelFull := consolidate st.rst

/-- Sum of the sizes of all FileNodes of kind file strictly below a
directory path. -/
def sumDescendantFileSizes (files : List FileRec) (dpath : String) : Nat :=
  ((files.filter fun r => r.ftype == "file" && strStartsWith r.id (dpath ++ "/")).map
    (fun r => r.size)).sum

/-- One _add_relationship invocation, for reasoning about arbitrary call
sequences against the accumulator. -/
abbrev AddOp := String × String × String

/-- Replay of a call sequence against an empty accumulator. -/
def runOps (ops : List AddOp) : RelState :=
  ops.foldl (fun st o => addRelationship st o.1 o.2.1 o.2.2) RelState.empty

/-- Canonical key of one call. -/
def opKey (o : AddOp) : RelKey := relKey o.1 o.2.1 o.2.2

/-- Canonical key of one recorded relationship shape. -/
def keyOfRel (r : Rel) : RelKey := relKey r.source r.target r.rtype

/-- Number of registrations of an import from A to B in a call sequence. -/
def countImportOps (ops : List AddOp) (A B : String) : Nat :=
  (ops.filter fun o => o == (A, B, "import")).length

/-- Per-file metrics model for _analyze_history: the inventory value of one
path, with metrics absent (None), or a Python dict modelled as an
association list. -/
structure HFile where
  path : String
  metrics : Option (List (String × Nat))
deriving DecidableEq

/-- Dict read with absent-key detection. -/
def getMetric (m : List (String × Nat)) (k : String) : Option Nat :=
  match m.find? (fun kv => kv.1 == k) with
  | some kv => some kv.2
  | none => none

/-- Dict write: update in place or append. -/
def setMetric : List (String × Nat) → String → Nat → List (String × Nat)
  | [], k, v => [(k, v)]
  | (k₁, v₁) :: rest, k, v =>
    if k₁ = k then (k₁, v) :: rest else (k₁, v₁) :: setMetric rest k v

/-- Per touched file update of _analyze_history (analyzer.py:3875-3885):
a None metrics field is replaced by an empty dict, which is then falsy, so
nothing is recorded; a non-empty dict gets lastModified set to the current
timestamp and commitCount incremented. -/
def touchFile (ts : Nat) (hf : HFile) : HFile :=
  match hf.metrics with
  | none => { hf with metrics := some [] }
  | some m =>
    if m.isEmpty then hf
    else
      let m₁ := setMetric m "lastModified" ts
      let m₂ := setMetric m₁ "commitCount" ((getMetric m₁ "commitCount").getD 0 + 1)
      { hf with metrics := some m₂ }

/-- Decimal digit-string parsing (the successful path of Python int()); the
exception path of int() on non-numeric text is not modelled, since the
guarded branch that calls it requires at least three whitespace-separated
tokens on a line of the form "commit:%H %at", which only ever has two. -/
def parseNatAux : List Char → Nat → Option Nat
  | [], acc => some acc
  | c :: rest, acc =>
    if c.isDigit then parseNatAux rest (acc * 10 + (c.toNat - 48)) else none

/-- Parse a natural number from a string, none on empty or non-digit. -/
def parseNatStr (s : String) : Option Nat :=
  if s.data.isEmpty then none else parseNatAux s.data 0

/-- Processing of one git-log output line by _analyze_history
(analyzer.py:3858-3885), threading the current commit timestamp.  Lines
starting with "commit:" update the timestamp only when they split into at
least three whitespace tokens (the produced format "commit:%H %at" splits
into two, so the timestamp keeps its initial value 0).  Name-status lines
touch the named file; rename lines use the new name (real rename lines have
exactly three tab-separated fields; other widths would raise in Python and
are modelled as using the second field). -/
def histLine (acc : Nat × List HFile) (line : String) : Nat × List HFile :=
  if strStartsWith line "commit:" then
    let parts := strSplitWs line
    if parts.length ≥ 3 then
      ((((parts.get? 2).bind parseNatStr).getD 0, acc.2))
    else acc
  else if line ≠ "" then
    let parts := strSplitOn line '\t'
    if parts.length ≥ 2 then
      let status := (parts.get? 0).getD ""
      let fp₀ := (parts.get? 1).getD ""
      let fp :=
        if strStartsWith status "R" then
          if parts.length = 3 then (parts.get? 2).getD "" else fp₀
        else fp₀
      (acc.1, acc.2.map fun hf => if hf.path = fp then touchFile acc.1 hf else hf)
    else acc
  else acc

/-- Model of _analyze_history over the splitlines of the git log output and
the inventory restricted to its per-path metrics. -/
def analyzeHistory (logLines : List String) (files : List HFile) : List HFile :=
  (logLines.foldl histLine (0, files)).2

/-- Positional and keyword parameters accepted by the effective
analyze_repository (analyzer.py:4095-4100). -/
def analyzeRepositoryParams : List String :=
  ["repo_path", "output_path", "python_coverage_path", "frontend_coverage_path"]

/-- Keyword arguments passed by cli.main at cli.py:131-136. -/
def cliAnalyzeCallKeywords : List String :=
  ["enable_github", "github_token"]

/-- Python call binding: a keyword argument not named by any parameter
raises TypeError at the call site. -/
def analyzeCallBinds : Bool :=
  cliAnalyzeCallKeywords.all fun k => analyzeRepositoryParams.contains k

/-- Model of cli.main (cli.py:83-143) after argument parsing, abstracting
the filesystem through an is-directory oracle: the three validations return
1; then analyze_repository is invoked with the keyword arguments above,
whose TypeError is caught by the blanket except and also returns 1; only a
successfully bound and completed call returns 0. -/
def mainModel (isDir : String → Bool) (repoPath outputPath : String) : Nat :=
  if !isDir repoPath then 1
  else if !isDir (joinPath repoPath ".git") then 1
  else if dirname outputPath ≠ "" && !isDir (dirname outputPath) then 1
  else if analyzeCallBinds then 0 else 1

/-- Attempted match of the credential pattern scheme + [^@]+ + "@" + ([^/]+)
+ (/.*)$ at the head of s, returning the re.sub replacement scheme + host +
path (plus a final newline that the dollar anchor may leave unconsumed).
The greedy character classes cannot backtrack past their excluded
characters, so takeWhile computes exactly the matched groups; "." does not
match a newline and "$" matches at the end of the string or before one
final newline, as in Python re without flags. -/
def tryCredMatch (scheme : List Char) (s : List Char) : Option (List Char) :=
  if scheme.isPrefixOf s then
    if ((s.drop scheme.length).takeWhile fun c => c ≠ '@').isEmpty then none
    else
      match (s.drop scheme.length).drop
          ((s.drop scheme.length).takeWhile fun c => c ≠ '@').length with
      | [] => none
      | c :: rest₂ =>
        if c = '@' then
          if (rest₂.takeWhile fun c => c ≠ '/').isEmpty then none
          else
            match rest₂.drop (rest₂.takeWhile fun c => c ≠ '/').length with
            | [] => none
            | c₂ :: tail =>
              if c₂ = '/' then
                if (c₂ :: tail).all (fun c => c ≠ '\n') then
                  some (scheme ++ (rest₂.takeWhile fun c => c ≠ '/') ++ c₂ :: tail)
                else if (c₂ :: tail).dropLast.all (fun c => c ≠ '\n') &&
                    (c₂ :: tail).getLast? = some '\n' then
                  some (scheme ++ (rest₂.takeWhile fun c => c ≠ '/') ++
                    (c₂ :: tail).dropLast ++ ['\n'])
                else none
              else none
        else none
  else none

/-- Leftmost-match scan of re.sub for the credential pattern: try the match
at each position; on success the replacement (which always extends to the
end of the string, bar a final newline) ends the scan. -/
def subCredScan (scheme : List Char) : List Char → List Char
  | [] => []
  | c :: rest =>
    match tryCredMatch scheme (c :: rest) with
    | some out => out
    | none => c :: subCredScan scheme rest

/-- Model of _sanitize_git_url (analyzer.py:3452-3471): the https
credential pattern is substituted first, then the ssh pattern, each keeping
only scheme, host and path. -/
def sanitizeGitUrl (url : String) : String :=
  ⟨subCredScan "ssh://".data (subCredScan "https://".data url.data)⟩

/-- Filesystem of the first C3 resolution example: the repository contains
src/main.py and src/utils/helpers.py. -/
def fsC3a : List String :=
  ["src", "src/main.py", "src/utils", "src/utils/helpers.py"]

/-- Filesystem of the second C3 resolution example: the repository contains
src/utils/helpers.py and src/models/user.py. -/
def fsC3b : List String :=
  ["src", "src/utils", "src/utils/helpers.py", "src/models", "src/models/user.py"]

/-- Inventory in which the probe order is observable: both src/utils.ts and
src/utils.jsx exist. -/
def invC7 : List FileRec :=
  [⟨"src/main.js", "file", 1⟩, ⟨"src/utils.ts", "file", 2⟩, ⟨"src/utils.jsx", "file", 3⟩]

/-- Repository with an always-ignored package that is imported: a.py
imports vendor, and vendor/__init__.py exists on disk but the vendor
directory is pruned from the walk. -/
def repoC1 : Repo :=
  ⟨[.dir "vendor", .file ⟨"a.py", 7, [.imp "vendor"], []⟩,
    .file ⟨"vendor/__init__.py", 3, [], []⟩], fun _ => false⟩

/-- Repository with one directory holding one five-byte file. -/
def repoC4 : Repo :=
  ⟨[.dir "d", .file ⟨"d/a.py", 5, [], []⟩], fun _ => false⟩

/-- Git log output (newest commit first, as git log emits) of two commits
touching a.py, in the format produced by _analyze_history's invocation. -/
def histLinesC9 : List String :=
  ["commit:abc 1700000000", "", "A\ta.py", "commit:def 1600000000", "", "M\ta.py"]

/-- Inventory metrics before _analyze_history: a.py was content-analyzed,
so its metrics dict is non-empty. -/
def histFilesC9 : List HFile :=
  [⟨"a.py", some [("linesOfCode", 10)]⟩]

/-- A call sequence with three registrations of the same import among other
edges. -/
def opsC2 : List AddOp :=
  [("a.py", "b.py", "import"), ("x", "y", "contains"), ("a.py", "b.py", "import"),
   ("a.py", "c.py", "import"), ("a.py", "b.py", "import")]

/-- Occurrence count of a canonical key in a call sequence. -/
def occKey (ops : List AddOp) (k : RelKey) : Nat :=
  (ops.filter fun o => opKey o == k).length

/-- Number of recorded relationship shapes with a given canonical key. -/
def relsAtKey (rels : List Rel) (k : RelKey) : Nat :=
  (rels.filter fun r => keyOfRel r == k).length

/-- Invariant tying the accumulator to the history of _add_relationship
calls: the count dictionary holds exactly the nonzero occurrence counts,
and each key that occurred has exactly one recorded shape. -/
def RelInv (ops : List AddOp) (st : RelState) : Prop :=
  (∀ k, lookupCount st.counts k =
    if occKey ops k = 0 then none else some (occKey ops k)) ∧
  (∀ k, relsAtKey st.rels k = if occKey ops k = 0 then 0 else 1)

/-- The ids of an inventory list. -/
def idsOf (l : List FileRec) : List String :=
  l.map FileRec.id

/-- Endpoint invariant of the walk: every inventoried id and every
dir_file_map key is a path existing on disk, every recorded relationship has
an inventoried source and an on-disk target, and contains targets are
inventoried as well. -/
def EndpointInvL (fs : List String) (st : AState) : Prop :=
  (∀ p ∈ idsOf st.fileIds, p ∈ fs) ∧
  (∀ p ∈ st.dirMapKeys, p ∈ idsOf st.fileIds) ∧
  (∀ r ∈ st.rst.rels,
    r.source ∈ idsOf st.fileIds ∧ r.target ∈ fs ∧
    (r.rtype = "contains" → r.target ∈ idsOf st.fileIds))

/-- Totality of the code-point comparison. -/
theorem charListLe_total (a b : List Char) :
    charListLe a b = true ∨ charListLe b a = true := by
  induction a generalizing b with
  | nil => exact Or.inl rfl
  | cons x xs ih =>
    cases b with
    | nil => exact Or.inr rfl
    | cons y ys =>
      rcases lt_trichotomy x y with h | h | h
      · exact Or.inl (by simp [charListLe, h])
      · subst h
        rcases ih ys with h₂ | h₂
        · exact Or.inl (by simp [charListLe, h₂])
        · exact Or.inr (by simp [charListLe, h₂])
      · exact Or.inr (by simp [charListLe, h])

/-- Antisymmetry of the code-point comparison. -/
theorem charListLe_antisymm {a b : List Char}
    (h₁ : charListLe a b = true) (h₂ : charListLe b a = true) : a = b := by
  induction a generalizing b with
  | nil =>
    cases b with
    | nil => rfl
    | cons y ys => simp [charListLe] at h₂
  | cons x xs ih =>
    cases b with
    | nil => simp [charListLe] at h₁
    | cons y ys =>
      rcases lt_trichotomy x y with h | h | h
      · simp [charListLe, h, asymm h] at h₂
      · subst h
        simp only [charListLe, lt_irrefl, if_false] at h₁ h₂
        exact congrArg₂ List.cons rfl (ih h₁ h₂)
      · simp [charListLe, h, asymm h] at h₁

/-- Antisymmetry of the Python string comparison. -/
theorem strLe_antisymm {a b : String}
    (h₁ : strLe a b = true) (h₂ : strLe b a = true) : a = b := by
  cases a with
  | mk da =>
    cases b with
    | mk db => exact congrArg String.mk (charListLe_antisymm h₁ h₂)

/-- The canonical key of a symmetric relationship type does not depend on
the direction in which the pair is presented. -/
theorem relKey_symm (A B ty : String)
    (hty : ty = "filesystem_proximity" ∨ ty = "semantic_similarity") :
    relKey B A ty = relKey A B ty := by
  have hsym : (ty = "semantic_similarity" || ty = "filesystem_proximity") = true := by
    rcases hty with h | h <;> simp [h]
  unfold relKey
  rw [hsym]
  cases hab : strLe A B <;> cases hba : strLe B A
  · exfalso
    unfold strLe at hab hba
    rcases charListLe_total A.data B.data with h | h
    · rw [h] at hab; cases hab
    · rw [h] at hba; cases hba
  · simp [hab, hba]
  · simp [hab, hba]
  · rw [strLe_antisymm hab hba]

/-- find? over a mapped list probes the original list with the composed
predicate. -/
theorem find_eq_of_map {α β : Type} (f : α → β) (p : β → Bool) (l : List α) :
    (l.map f).find? p = (l.find? fun a => p (f a)).map f := by
  induction l with
  | nil => rfl
  | cons a t ih =>
    simp only [List.map_cons, List.find?]
    cases h : p (f a) <;> simp [h, ih]

/-- C3: the claim asserts that resolving the absolute import utils.helpers
from src/main.py against an inventory containing src/utils/helpers.py
yields src/utils/helpers.py.  It does not: the source tries absolute
imports only relative to the repository root (the importing-file fallback at
analyzer.py:4033 is guarded by level > 0), so the resolution returns
nothing even though src/utils/helpers.py is on disk. -/
theorem python_import_resolution_cex :
    fsC3a.contains "src/utils/helpers.py" = true ∧
    resolvePythonImport fsC3a "utils.helpers" "src/main.py" 0 = none := by
  decide

/-- C3 amended: absolute Python imports are resolved against the repository
root only, so the first example yields nothing; the relative example
(module models.user at level two) does yield src/models/user.py. -/
theorem python_import_resolution_amended :
    resolvePythonImport fsC3a "utils.helpers" "src/main.py" 0 = none ∧
    resolvePythonImport fsC3b "models.user" "src/utils/helpers.py" 2 =
      some "src/models/user.py" := by
  decide

/-- C4: after the effective _analyze_files, a directory record keeps the
size 0 it was created with (the _update_directory_sizes pass is only
invoked by the overridden earlier drafts), while the sum of its descendant
file sizes is 5 - the aggregation the claim asserts does not happen. -/
theorem directory_size_stays_zero :
    finalFiles (analyzeFiles repoC4) = [⟨"d", "directory", 0⟩, ⟨"d/a.py", "file", 5⟩] ∧
    sumDescendantFileSizes (finalFiles (analyzeFiles repoC4)) "d" = 5 ∧
    (0 : Nat) ≠ 5 := by
  decide

/-- C5: cli.main can never return 0: even when every validation passes, the
call analyze_repository(repo_path, output_path, enable_github=...,
github_token=...) does not bind against the effective signature
analyze_repository(repo_path, output_path, python_coverage_path,
frontend_coverage_path); the TypeError is swallowed by the blanket except
and main returns 1. -/
theorem cli_main_never_returns_zero (isDir : String → Bool)
    (repoPath outputPath : String) :
    mainModel isDir repoPath outputPath = 1 := by
  have h : analyzeCallBinds = false := by decide
  simp [mainModel, h]

/-- C6: adding a symmetric edge (A,B) and then (B,A) to an empty accumulator
produces exactly one consolidated relationship, keyed on the sorted pair,
with the two occurrences combined into strength 2; directed types are keyed
on (source, target, type) without sorting. -/
theorem symmetric_canonicalization (A B ty : String)
    (hty : ty = "filesystem_proximity" ∨ ty = "semantic_similarity") :
    consolidate (addRelationship (addRelationship RelState.empty A B ty) B A ty) =
      [⟨A, B, ty, 2⟩] ∧
    ∀ s t ty₂, ty₂ ≠ "filesystem_proximity" → ty₂ ≠ "semantic_similarity" →
      relKey s t ty₂ = (s, t, ty₂) := by
  constructor
  · have hk : relKey B A ty = relKey A B ty := relKey_symm A B ty hty
    simp [addRelationship, RelState.empty, consolidate, lookupCount, bumpKey, hk]
  · intro s t ty₂ h₁ h₂
    simp [relKey, h₁, h₂]

/-- Closed instance of symmetric_canonicalization. -/
theorem symmetric_canonicalization_witness :
    consolidate (addRelationship
      (addRelationship RelState.empty "b.py" "a.py" "filesystem_proximity")
      "a.py" "b.py" "filesystem_proximity") =
      [⟨"b.py", "a.py", "filesystem_proximity", 2⟩] ∧
    relKey "x.py" "y.py" "import" = ("x.py", "y.py", "import") := by
  have h := symmetric_canonicalization "b.py" "a.py" "filesystem_proximity" (Or.inl rfl)
  exact ⟨h.1, h.2 "x.py" "y.py" "import" (by decide) (by decide)⟩

/-- C7: the claim asserts the probe order .js, .jsx, .ts, .tsx, /index.js,
/index.jsx, /index.ts, /index.tsx; the source order (analyzer.py:4075-4084)
is .js, .ts, .jsx, .tsx, /index.js, /index.ts, /index.jsx, /index.tsx.  On
an inventory containing both src/utils.ts and src/utils.jsx the two orders
give different results, so the claimed order is refuted. -/
theorem js_ext_probe_order_cex :
    resolveJsImport invC7 "./utils" "src/main.js" = some "src/utils.ts" ∧
    resolveJsImportSpecOrder invC7 "./utils" "src/main.js" = some "src/utils.jsx" ∧
    some "src/utils.ts" ≠ some "src/utils.jsx" := by
  decide

/-- C7 amended: for a relative specifier, resolution normalizes the path
against the importing file directory and returns the first candidate
present in the inventory, probing extensions in the source order jsExts
(.js, .ts, .jsx, .tsx, then the four index variants), with the bare
normalized path itself as a final fallback. -/
theorem js_ext_probe_order_amended (inv : List FileRec) (sp fp : String)
    (h₁ : strStartsWith sp "." = true) (h₂ : strStartsWith sp "/" = false) :
    resolveJsImport inv sp fp = jsProbe inv (normPath (joinPath (dirname fp) sp)) := by
  have hres : jsResolved sp fp = normPath (joinPath (dirname fp) sp) := by
    unfold jsResolved
    rw [h₂]
    simp
  unfold resolveJsImport jsProbe
  rw [h₁, h₂, hres]
  simp only [Bool.true_or, Bool.not_true, Bool.false_eq_true, if_false]
  rw [find_eq_of_map]
  cases hf : jsExts.find? fun a => hasIdL inv (normPath (joinPath (dirname fp) sp) ++ a) <;>
    simp [hf]

/-- Closed instance of js_ext_probe_order_amended. -/
theorem js_ext_probe_order_amended_witness :
    resolveJsImport invC7 "./utils" "src/main.js" =
      jsProbe invC7 (normPath (joinPath (dirname "src/main.js") "./utils")) :=
  js_ext_probe_order_amended invC7 "./utils" "src/main.js" (by decide) (by decide)

/-- C8: a specifier that starts with neither a dot nor a slash (a bare or
scoped module such as react or @babel/core) always resolves to nothing,
whatever the inventory, and extraction adds no import edge for it. -/
theorem external_module_short_circuit (inv : List FileRec) (sp fp : String)
    (h₁ : strStartsWith sp "." = false) (h₂ : strStartsWith sp "/" = false) :
    resolveJsImport inv sp fp = none ∧
    ∀ rst : RelState, extractJsImports inv fp [sp] rst = rst := by
  have hr : resolveJsImport inv sp fp = none := by
    unfold resolveJsImport
    rw [h₁, h₂]
    rfl
  refine ⟨hr, fun rst => ?_⟩
  unfold extractJsImports
  simp only [List.foldl_cons, List.foldl_nil]
  rw [hr]
  split <;> rfl

/-- Closed instance of external_module_short_circuit at the two specifiers
named by the claim. -/
theorem external_module_short_circuit_witness :
    resolveJsImport invC7 "react" "src/main.js" = none ∧
    resolveJsImport invC7 "@babel/core" "src/main.js" = none ∧
    extractJsImports invC7 "src/main.js" ["react"] RelState.empty = RelState.empty := by
  refine ⟨(external_module_short_circuit invC7 "react" "src/main.js"
      (by decide) (by decide)).1,
    (external_module_short_circuit invC7 "@babel/core" "src/main.js"
      (by decide) (by decide)).1,
    (external_module_short_circuit invC7 "react" "src/main.js"
      (by decide) (by decide)).2 RelState.empty⟩

/-- C9: on a two-commit log touching a.py twice, _analyze_history records
commitCount 2 (as the claim states) but lastModified 0, not the date
1700000000 of the most recent commit: the header "commit:%H %at" splits
into two whitespace tokens, so the guard len(parts) >= 3 at
analyzer.py:3862 never fires and the timestamp keeps its initial value 0. -/
theorem history_last_modified_zero :
    analyzeHistory histLinesC9 histFilesC9 =
      [⟨"a.py", some [("linesOfCode", 10), ("lastModified", 0), ("commitCount", 2)]⟩] ∧
    (0 : Nat) ≠ 1700000000 := by
  decide

/-- Lookup after increment-or-insert. -/
theorem lookupCount_bumpKey (c : List (RelKey × Nat)) (k k₂ : RelKey) :
    lookupCount (bumpKey c k) k₂ =
      if k₂ = k then some ((lookupCount c k).getD 0 + 1) else lookupCount c k₂ := by
  induction c with
  | nil =>
    by_cases h : k₂ = k
    · subst h; simp [bumpKey, lookupCount]
    · simp [bumpKey, lookupCount, h, Ne.symm h]
  | cons p rest ih =>
    obtain ⟨k₁, n⟩ := p
    by_cases h₁ : k₁ = k
    · subst h₁
      by_cases h₂ : k₂ = k₁
      · subst h₂; simp [bumpKey, lookupCount]
      · simp [bumpKey, lookupCount, h₂, Ne.symm h₂]
    · by_cases h₂ : k₁ = k₂
      · subst h₂
        simp [bumpKey, lookupCount, h₁, Ne.symm h₁]
      · simp [bumpKey, lookupCount, h₁, h₂, ih]

/-- Occurrence counts after one more call. -/
theorem occKey_append (ops : List AddOp) (o : AddOp) (k : RelKey) :
    occKey (ops ++ [o]) k = occKey ops k + (if opKey o = k then 1 else 0) := by
  unfold occKey
  rw [List.filter_append, List.length_append]
  by_cases h : opKey o = k
  · simp [List.filter, h]
  · have hb : (opKey o == k) = false := beq_eq_false_iff_ne.mpr h
    simp [List.filter, hb, h]

/-- Recorded-shape counts after one more shape. -/
theorem relsAtKey_append (rels : List Rel) (r : Rel) (k : RelKey) :
    relsAtKey (rels ++ [r]) k = relsAtKey rels k + (if keyOfRel r = k then 1 else 0) := by
  unfold relsAtKey
  rw [List.filter_append, List.length_append]
  by_cases h : keyOfRel r = k
  · simp [List.filter, h]
  · have hb : (keyOfRel r == k) = false := beq_eq_false_iff_ne.mpr h
    simp [List.filter, hb, h]

/-- The invariant holds initially. -/
theorem relInv_empty : RelInv [] RelState.empty := by
  constructor <;> intro k <;> simp [RelState.empty, lookupCount, occKey, relsAtKey]

/-- One _add_relationship call preserves the invariant. -/
theorem relInv_step (ops : List AddOp) (st : RelState) (o : AddOp)
    (h : RelInv ops st) : RelInv (ops ++ [o]) (addRelationship st o.1 o.2.1 o.2.2) := by
  obtain ⟨h₁, h₂⟩ := h
  obtain ⟨s, t, ty⟩ := o
  have hopk : opKey (s, t, ty) = relKey s t ty := rfl
  have hkrel : keyOfRel ⟨s, t, ty⟩ = relKey s t ty := rfl
  unfold addRelationship
  dsimp only
  cases hc : lookupCount st.counts (relKey s t ty) with
  | none =>
    have hocc : occKey ops (relKey s t ty) = 0 := by
      by_contra hne
      rw [h₁ (relKey s t ty), if_neg hne] at hc
      cases hc
    simp only [Option.isSome_none, Bool.false_eq_true, if_false]
    refine ⟨fun k => ?_, fun k => ?_⟩
    · show lookupCount (bumpKey st.counts (relKey s t ty)) k = _
      rw [lookupCount_bumpKey, occKey_append, hopk]
      by_cases hk : k = relKey s t ty
      · subst hk
        rw [if_pos rfl, if_pos rfl, hc, hocc]
        simp
      · rw [if_neg hk, if_neg (fun hh : relKey s t ty = k => hk hh.symm),
          Nat.add_zero, h₁ k]
    · show relsAtKey (st.rels ++ [⟨s, t, ty⟩]) k = _
      rw [relsAtKey_append, occKey_append, hopk, hkrel]
      by_cases hk : k = relKey s t ty
      · subst hk
        rw [if_pos rfl, h₂ (relKey s t ty), if_pos hocc, hocc]
        simp
      · rw [if_neg (fun hh : relKey s t ty = k => hk hh.symm),
          Nat.add_zero, Nat.add_zero, h₂ k]
  | some n =>
    have hocc : occKey ops (relKey s t ty) ≠ 0 := by
      intro hz
      rw [h₁ (relKey s t ty), if_pos hz] at hc
      cases hc
    have hn : n = occKey ops (relKey s t ty) := by
      have hh := h₁ (relKey s t ty)
      rw [if_neg hocc, hc] at hh
      exact Option.some_inj.mp hh
    simp only [Option.isSome_some, eq_self_iff_true, if_true]
    refine ⟨fun k => ?_, fun k => ?_⟩
    · show lookupCount (bumpKey st.counts (relKey s t ty)) k = _
      rw [lookupCount_bumpKey, occKey_append, hopk]
      by_cases hk : k = relKey s t ty
      · subst hk
        rw [if_pos rfl, if_pos rfl, hc, ← hn]
        simp
      · rw [if_neg hk, if_neg (fun hh : relKey s t ty = k => hk hh.symm),
          Nat.add_zero, h₁ k]
    · show relsAtKey st.rels k = _
      rw [occKey_append, hopk]
      by_cases hk : k = relKey s t ty
      · subst hk
        rw [if_pos rfl, h₂ (relKey s t ty), if_neg hocc,
          if_neg (Nat.succ_ne_zero (occKey ops (relKey s t ty)))]
      · rw [if_neg (fun hh : relKey s t ty = k => hk hh.symm), Nat.add_zero, h₂ k]

/-- The invariant holds after replaying any call sequence. -/
theorem relInv_runOps (ops : List AddOp) : RelInv ops (runOps ops) := by
  suffices h : ∀ pre st, RelInv pre st →
      RelInv (pre ++ ops) (ops.foldl (fun st o => addRelationship st o.1 o.2.1 o.2.2) st) by
    simpa [runOps] using h [] RelState.empty relInv_empty
  induction ops with
  | nil => intro pre st h; simpa using h
  | cons o rest ih =>
    intro pre st h
    have h₂ := relInv_step pre st o h
    have h₃ := ih (pre ++ [o]) _ h₂
    simpa [List.append_assoc] using h₃

/-- The third component of a canonical key is the relationship type. -/
theorem relKey_third (s t ty : String) : (relKey s t ty).2.2 = ty := by
  unfold relKey
  split
  · split <;> rfl
  · rfl

/-- Directed canonical keys are the identity on the triple. -/
theorem relKey_not_symm (s t ty : String)
    (h₁ : ty ≠ "semantic_similarity") (h₂ : ty ≠ "filesystem_proximity") :
    relKey s t ty = (s, t, ty) := by
  simp [relKey, h₁, h₂]

/-- A canonical key equals an import triple exactly when the call was that
same import triple. -/
theorem relKey_eq_import_iff (s t ty A B : String) :
    relKey s t ty = (A, B, "import") ↔ s = A ∧ t = B ∧ ty = "import" := by
  constructor
  · intro h
    have hty : ty = "import" := by
      have h₃ := congrArg (fun q : RelKey => q.2.2) h
      simpa [relKey_third] using h₃
    subst hty
    rw [relKey_not_symm s t "import" (by decide) (by decide)] at h
    simp only [Prod.mk.injEq] at h
    exact ⟨h.1, h.2.1, rfl⟩
  · rintro ⟨h₁, h₂, h₃⟩
    subst h₁
    subst h₂
    subst h₃
    exact relKey_not_symm s t "import" (by decide) (by decide)

/-- Filtered length of a mapped list through a pointwise predicate
translation. -/
theorem filter_map_length {α β : Type} (f : α → β) (p : β → Bool) (q : α → Bool)
    (l : List α) (h : ∀ a, p (f a) = q a) :
    ((l.map f).filter p).length = (l.filter q).length := by
  induction l with
  | nil => rfl
  | cons a tl ih =>
    simp only [List.map_cons, List.filter]
    rw [h a]
    cases hq : q a <;> simp [hq, ih]

/-- Pointwise-equal predicates filter alike. -/
theorem filter_ext_len {α : Type} (p q : α → Bool) (l : List α)
    (h : ∀ a, p a = q a) : (l.filter p).length = (l.filter q).length := by
  induction l with
  | nil => rfl
  | cons a tl ih =>
    simp only [List.filter]
    rw [h a]
    cases hq : q a <;> simp [hq, ih]

/-- C2: if a call sequence registers an import from A to B exactly N > 0
times, the consolidated output contains exactly one relationship with
source A, target B and type import, and its strength is N. -/
theorem import_dedup_count (ops : List AddOp) (A B : String) (N : Nat)
    (hN : 0 < N) (hcount : countImportOps ops A B = N) :
    ((consolidate (runOps ops)).filter fun r =>
        r.source == A && r.target == B && r.rtype == "import").length = 1 ∧
    ∀ r ∈ consolidate (runOps ops),
      r.source = A → r.target = B → r.rtype = "import" → r.strength = N := by
  obtain ⟨h₁, h₂⟩ := relInv_runOps ops
  have hops : ∀ o : AddOp, (opKey o == (A, B, "import")) = (o == (A, B, "import")) := by
    intro o
    obtain ⟨s, t, ty⟩ := o
    by_cases h : relKey s t ty = (A, B, "import")
    · obtain ⟨e₁, e₂, e₃⟩ := (relKey_eq_import_iff s t ty A B).mp h
      subst e₁; subst e₂; subst e₃
      simp [opKey, h]
    · have hne : ((s, t, ty) : AddOp) ≠ (A, B, "import") := by
        intro hh
        simp only [Prod.mk.injEq] at hh
        exact h ((relKey_eq_import_iff s t ty A B).mpr ⟨hh.1, hh.2.1, hh.2.2⟩)
      simp [opKey, h, hne]
  have hocc : occKey ops (A, B, "import") = N := by
    unfold occKey
    unfold countImportOps at hcount
    rw [filter_ext_len _ _ ops hops]
    exact hcount
  have hoccne : occKey ops (A, B, "import") ≠ 0 := by
    rw [hocc]
    omega
  have hlook : lookupCount (runOps ops).counts (A, B, "import") = some N := by
    rw [h₁ (A, B, "import"), if_neg hoccne, hocc]
  have hrels : relsAtKey (runOps ops).rels (A, B, "import") = 1 := by
    rw [h₂ (A, B, "import"), if_neg hoccne]
  have hpt : ∀ r : Rel,
      (((r.source == A) && (r.target == B)) && (r.rtype == "import")) =
        (keyOfRel r == (A, B, "import")) := by
    intro r
    by_cases h : keyOfRel r = (A, B, "import")
    · obtain ⟨e₁, e₂, e₃⟩ := (relKey_eq_import_iff r.source r.target r.rtype A B).mp h
      simp [h, e₁, e₂, e₃]
    · cases hb : (((r.source == A) && (r.target == B)) && (r.rtype == "import")) with
      | false =>
        symm
        rw [beq_eq_false_iff_ne]
        exact h
      | true =>
        exfalso
        simp only [Bool.and_eq_true, beq_iff_eq] at hb
        exact h ((relKey_eq_import_iff r.source r.target r.rtype A B).mpr
          ⟨hb.1.1, hb.1.2, hb.2⟩)
  constructor
  · unfold consolidate
    rw [filter_map_length _ _ _ _ (fun r => hpt r)]
    exact hrels
  · intro r hr e₁ e₂ e₃
    unfold consolidate at hr
    obtain ⟨r₀, hr₀, hmap⟩ := List.mem_map.mp hr
    have hsrc : r₀.source = A := by rw [← hmap] at e₁; exact e₁
    have htgt : r₀.target = B := by rw [← hmap] at e₂; exact e₂
    have hty : r₀.rtype = "import" := by rw [← hmap] at e₃; exact e₃
    have hstr : r.strength =
        (lookupCount (runOps ops).counts (relKey r₀.source r₀.target r₀.rtype)).getD 1 := by
      rw [← hmap]
    rw [hstr, hsrc, htgt, hty,
      relKey_not_symm A B "import" (by decide) (by decide), hlook]
    rfl

/-- Bool contains implies membership, for strings. -/
theorem mem_of_contains {l : List String} {a : String}
    (h : l.contains a = true) : a ∈ l := by
  simpa using h

/-- A successful Python resolution always returns a path existing on disk:
every branch of _resolve_python_import is guarded by os.path.exists. -/
theorem resolvePythonImport_mem {fs : List String} {nm fp : String} {lvl : Nat}
    {r : String} (h : resolvePythonImport fs nm fp lvl = some r) : r ∈ fs := by
  unfold resolvePythonImport at h
  split_ifs at h with h₁ h₂ h₃ h₄
  · exact (Option.some_inj.mp h) ▸ mem_of_contains h₁
  · exact (Option.some_inj.mp h) ▸ mem_of_contains h₂
  · exact (Option.some_inj.mp h) ▸ mem_of_contains h₄

/-- A truthy inventory test yields membership in the id list. -/
theorem hasIdL_mem {inv : List FileRec} {p : String}
    (h : hasIdL inv p = true) : p ∈ idsOf inv := by
  unfold hasIdL at h
  obtain ⟨r, hr, hb⟩ := List.any_eq_true.mp h
  have hid : r.id = p := by simpa using hb
  exact hid ▸ List.mem_map_of_mem FileRec.id hr

/-- A successful JS resolution always returns an inventoried id: every
branch of _resolve_js_import is guarded by membership in self.file_ids. -/
theorem resolveJsImport_mem {inv : List FileRec} {sp fp r : String}
    (h : resolveJsImport inv sp fp = some r) : r ∈ idsOf inv := by
  unfold resolveJsImport at h
  split at h
  · cases h
  · split at h
    · rename_i e hfind
      have hp := List.find?_some hfind
      exact (Option.some_inj.mp h) ▸ hasIdL_mem hp
    · split_ifs at h with h₂
      exact (Option.some_inj.mp h) ▸ hasIdL_mem h₂

/-- The function _add_relationship either keeps the recorded shapes or appends exactly
the given one. -/
theorem addRelationship_rels {st : RelState} {s t ty : String} {r : Rel}
    (h : r ∈ (addRelationship st s t ty).rels) : r ∈ st.rels ∨ r = ⟨s, t, ty⟩ := by
  unfold addRelationship at h
  split at h
  · exact Or.inl h
  · rcases List.mem_append.mp h with h₂ | h₂
    · exact Or.inl h₂
    · exact Or.inr (List.mem_singleton.mp h₂)

/-- Shapes produced by a fold of relationship-adding steps are old shapes or
satisfy the per-step property. -/
theorem foldl_rels_pred {α : Type} (step : RelState → α → RelState) (Q : Rel → Prop)
    (hstep : ∀ rst a r, r ∈ (step rst a).rels → r ∈ rst.rels ∨ Q r) :
    ∀ (l : List α) (rst : RelState) (r : Rel),
      r ∈ (l.foldl step rst).rels → r ∈ rst.rels ∨ Q r := by
  intro l
  induction l with
  | nil => intro rst r h; exact Or.inl h
  | cons a tl ih =>
    intro rst r h
    rcases ih (step rst a) r h with h₂ | h₂
    · exact hstep rst a r h₂
    · exact Or.inr h₂

/-- Shapes added by _handle_import_from_alias are import edges from the
current file to an on-disk target or an inventoried target. -/
theorem handleImportFromAlias_rels (fs : List String) (inv : List FileRec)
    (rst : RelState) (module fp : String) (lvl : Nat) (nm : String) (r : Rel)
    (h : r ∈ (handleImportFromAlias fs inv rst module fp lvl nm).rels) :
    r ∈ rst.rels ∨
      (r.source = fp ∧ r.rtype = "import" ∧ (r.target ∈ fs ∨ r.target ∈ idsOf inv)) := by
  unfold handleImportFromAlias at h
  split at h
  · exact Or.inl h
  · rename_i r₁ hres
    split_ifs at h with h₁ h₂ h₃
    · exact Or.inl h
    · rcases addRelationship_rels h with h₄ | h₄
      · exact Or.inl h₄
      · right
        rw [h₄]
        exact ⟨rfl, rfl, Or.inr (hasIdL_mem h₃)⟩
    · rcases addRelationship_rels h with h₄ | h₄
      · exact Or.inl h₄
      · right
        rw [h₄]
        exact ⟨rfl, rfl, Or.inl (resolvePythonImport_mem hres)⟩
    · rcases addRelationship_rels h with h₄ | h₄
      · exact Or.inl h₄
      · right
        rw [h₄]
        exact ⟨rfl, rfl, Or.inl (resolvePythonImport_mem hres)⟩

/-- Shapes added by one parsed Python statement are import edges from the
current file to an on-disk or inventoried target. -/
theorem processPyStmt_rels (fs : List String) (inv : List FileRec)
    (fp : String) (rst : RelState) (stmt : PyStmt) (r : Rel)
    (h : r ∈ (processPyStmt fs inv fp rst stmt).rels) :
    r ∈ rst.rels ∨
      (r.source = fp ∧ r.rtype = "import" ∧ (r.target ∈ fs ∨ r.target ∈ idsOf inv)) := by
  cases stmt with
  | imp nm =>
    simp only [processPyStmt] at h
    split at h
    · rename_i r₁ hres
      split_ifs at h with h₁
      · exact Or.inl h
      · rcases addRelationship_rels h with h₂ | h₂
        · exact Or.inl h₂
        · right
          rw [h₂]
          exact ⟨rfl, rfl, Or.inl (resolvePythonImport_mem hres)⟩
    · exact Or.inl h
  | impFrom module lvl names =>
    simp only [processPyStmt] at h
    split_ifs at h with h₁
    · exact Or.inl h
    · exact foldl_rels_pred
        (fun rst nm => handleImportFromAlias fs inv rst module fp lvl nm)
        (fun r => r.source = fp ∧ r.rtype = "import" ∧
          (r.target ∈ fs ∨ r.target ∈ idsOf inv))
        (fun rst nm r h => handleImportFromAlias_rels fs inv rst module fp lvl nm r h)
        names rst r h

/-- Shapes added by JS extraction are import edges from the current file to
an inventoried target. -/
theorem extractJsImports_rels (inv : List FileRec) (srcPath : String)
    (specs : List String) (rst : RelState) (r : Rel)
    (h : r ∈ (extractJsImports inv srcPath specs rst).rels) :
    r ∈ rst.rels ∨ (r.source = srcPath ∧ r.rtype = "import" ∧ r.target ∈ idsOf inv) := by
  unfold extractJsImports at h
  refine foldl_rels_pred _
    (fun r => r.source = srcPath ∧ r.rtype = "import" ∧ r.target ∈ idsOf inv)
    ?_ specs rst r h
  intro rst₁ sp r₁ h₁
  split_ifs at h₁ with he
  · exact Or.inl h₁
  · split at h₁
    · rename_i r₂ hres
      split_ifs at h₁ with hz
      · exact Or.inl h₁
      · rcases addRelationship_rels h₁ with h₂ | h₂
        · exact Or.inl h₂
        · right
          rw [h₂]
          exact ⟨rfl, rfl, resolveJsImport_mem hres⟩
    · exact Or.inl h₁

/-- Shapes added while analyzing one file content are import edges from
that file to an on-disk or inventoried target. -/
theorem extractFileRelationships_rels (fs : List String) (st : AState)
    (f : SrcFile) (ext : String) (r : Rel)
    (h : r ∈ (extractFileRelationships fs st f ext).rels) :
    r ∈ st.rst.rels ∨
      (r.source = f.path ∧ r.rtype = "import" ∧
        (r.target ∈ fs ∨ r.target ∈ idsOf st.fileIds)) := by
  unfold extractFileRelationships at h
  split_ifs at h with h₁ h₂
  · unfold extractPythonImports at h
    exact foldl_rels_pred (processPyStmt fs st.fileIds f.path)
      (fun r => r.source = f.path ∧ r.rtype = "import" ∧
        (r.target ∈ fs ∨ r.target ∈ idsOf st.fileIds))
      (fun rst stmt r h => processPyStmt_rels fs st.fileIds f.path rst stmt r h)
      f.pyStmts st.rst r h
  · rcases extractJsImports_rels st.fileIds f.path f.jsSpecs st.rst r h with h₃ | h₃
    · exact Or.inl h₃
    · exact Or.inr ⟨h₃.1, h₃.2.1, Or.inr h₃.2.2⟩
  · exact Or.inl h

/-- Membership in the ids of an appended inventory. -/
theorem mem_idsOf_append {l : List FileRec} {x : FileRec} {p : String} :
    p ∈ idsOf (l ++ [x]) ↔ p ∈ idsOf l ∨ p = x.id := by
  simp [idsOf]

/-- Processing one walked entry preserves the endpoint invariant. -/
theorem endpointInvL_processEntry (fs : List String) (gi : String → Bool)
    (st : AState) (e : Entry) (hinv : EndpointInvL fs st) (he : e.path ∈ fs) :
    EndpointInvL fs (processEntry fs gi st e) := by
  obtain ⟨h₁, h₂, h₃⟩ := hinv
  cases e with
  | dir d =>
    simp only [Entry.path] at he
    simp only [processEntry]
    split_ifs with hd hp
    · -- included, with a parent contains edge
      simp only [Bool.and_eq_true, decide_eq_true_eq] at hp
      refine ⟨?_, ?_, ?_⟩
      · intro p hpm
        rcases mem_idsOf_append.mp hpm with hm | hm
        · exact h₁ p hm
        · exact hm ▸ he
      · intro p hpm
        rcases List.mem_append.mp hpm with hm | hm
        · exact mem_idsOf_append.mpr (Or.inl (h₂ p hm))
        · exact mem_idsOf_append.mpr (Or.inr (List.mem_singleton.mp hm))
      · intro r hr
        rcases addRelationship_rels hr with hm | hm
        · obtain ⟨s₁, s₂, s₃⟩ := h₃ r hm
          exact ⟨mem_idsOf_append.mpr (Or.inl s₁), s₂,
            fun hc => mem_idsOf_append.mpr (Or.inl (s₃ hc))⟩
        · rw [hm]
          exact ⟨hasIdL_mem hp.2, he, fun _ => mem_idsOf_append.mpr (Or.inr rfl)⟩
    · -- included, no parent edge
      refine ⟨?_, ?_, ?_⟩
      · intro p hpm
        rcases mem_idsOf_append.mp hpm with hm | hm
        · exact h₁ p hm
        · exact hm ▸ he
      · intro p hpm
        rcases List.mem_append.mp hpm with hm | hm
        · exact mem_idsOf_append.mpr (Or.inl (h₂ p hm))
        · exact mem_idsOf_append.mpr (Or.inr (List.mem_singleton.mp hm))
      · intro r hr
        obtain ⟨s₁, s₂, s₃⟩ := h₃ r hr
        exact ⟨mem_idsOf_append.mpr (Or.inl s₁), s₂,
          fun hc => mem_idsOf_append.mpr (Or.inl (s₃ hc))⟩
    · exact ⟨h₁, h₂, h₃⟩
  | file f =>
    simp only [Entry.path] at he
    simp only [processEntry]
    split_ifs with hw hh hi hp
    · exact ⟨h₁, h₂, h₃⟩
    · exact ⟨h₁, h₂, h₃⟩
    · exact ⟨h₁, h₂, h₃⟩
    · -- analyzed, with a parent contains edge
      simp only [Bool.and_eq_true, decide_eq_true_eq] at hp
      refine ⟨?_, ?_, ?_⟩
      · intro p hpm
        rcases mem_idsOf_append.mp hpm with hm | hm
        · exact h₁ p hm
        · exact hm ▸ he
      · intro p hpm
        exact mem_idsOf_append.mpr (Or.inl (h₂ p hpm))
      · intro r hr
        rcases addRelationship_rels hr with hm | hm
        · rcases extractFileRelationships_rels fs st f (extOf (baseName f.path)) r hm with
            hold | hnew
          · obtain ⟨s₁, s₂, s₃⟩ := h₃ r hold
            exact ⟨mem_idsOf_append.mpr (Or.inl s₁), s₂,
              fun hc => mem_idsOf_append.mpr (Or.inl (s₃ hc))⟩
          · obtain ⟨s₁, s₂, s₃⟩ := hnew
            refine ⟨s₁ ▸ mem_idsOf_append.mpr (Or.inr rfl), ?_, ?_⟩
            · rcases s₃ with hm₂ | hm₂
              · exact hm₂
              · exact h₁ r.target hm₂
            · intro hc
              exact absurd (s₂ ▸ hc : ("import" : String) = "contains") (by decide)
        · rw [hm]
          refine ⟨mem_idsOf_append.mpr (Or.inl (h₂ _ (mem_of_contains hp.2))), he,
            fun _ => mem_idsOf_append.mpr (Or.inr rfl)⟩
    · -- analyzed, no parent edge
      refine ⟨?_, ?_, ?_⟩
      · intro p hpm
        rcases mem_idsOf_append.mp hpm with hm | hm
        · exact h₁ p hm
        · exact hm ▸ he
      · intro p hpm
        exact mem_idsOf_append.mpr (Or.inl (h₂ p hpm))
      · intro r hr
        rcases extractFileRelationships_rels fs st f (extOf (baseName f.path)) r hr with
          hold | hnew
        · obtain ⟨s₁, s₂, s₃⟩ := h₃ r hold
          exact ⟨mem_idsOf_append.mpr (Or.inl s₁), s₂,
            fun hc => mem_idsOf_append.mpr (Or.inl (s₃ hc))⟩
        · obtain ⟨s₁, s₂, s₃⟩ := hnew
          refine ⟨s₁ ▸ mem_idsOf_append.mpr (Or.inr rfl), ?_, ?_⟩
          · rcases s₃ with hm₂ | hm₂
            · exact hm₂
            · exact h₁ r.target hm₂
          · intro hc
            exact absurd (s₂ ▸ hc : ("import" : String) = "contains") (by decide)

/-- The endpoint invariant holds through the whole walk. -/
theorem endpointInvL_foldl (fs : List String) (gi : String → Bool) :
    ∀ (l : List Entry) (st : AState), (∀ e ∈ l, e.path ∈ fs) → EndpointInvL fs st →
      EndpointInvL fs (l.foldl (processEntry fs gi) st) := by
  intro l
  induction l with
  | nil => intro st _ h; exact h
  | cons e tl ih =>
    intro st hall hinv
    exact ih (processEntry fs gi st e)
      (fun x hx => hall x (List.mem_cons_of_mem e hx))
      (endpointInvL_processEntry fs gi st e hinv (hall e (List.mem_cons_self e tl)))

/-- The endpoint invariant holds of the empty state. -/
theorem endpointInvL_empty (fs : List String) : EndpointInvL fs AState.empty :=
  ⟨fun p hp => by simp [AState.empty, idsOf] at hp,
   fun p hp => by simp [AState.empty] at hp,
   fun r hr => by simp [AState.empty, RelState.empty] at hr⟩

/-- The endpoint invariant after the full analysis. -/
theorem endpointInvL_analyzeFiles (repo : Repo) :
    EndpointInvL (fsPaths repo) (analyzeFiles repo) := by
  unfold analyzeFiles
  exact endpointInvL_foldl (fsPaths repo) repo.gi repo.entries AState.empty
    (fun e he => List.mem_map_of_mem Entry.path he) (endpointInvL_empty _)

/-- C1: the claim asserts that both endpoints of every serialized
relationship are ids present in the files list.  It fails: Python import
resolution checks os.path.exists, not inventory membership, so a file that
exists on disk but is pruned from the inventory can be an import target.
In repoC1 the file a.py imports vendor; vendor/__init__.py exists on
disk, the vendor directory is in the hard-coded always-ignore set, and the
serialized output contains the edge a.py to vendor/__init__.py whose target
is not among the serialized file ids. -/
theorem no_dangling_edges_cex :
    finalRels (analyzeFiles repoC1) = [⟨"a.py", "vendor/__init__.py", "import", 1⟩] ∧
    (finalFiles (analyzeFiles repoC1)).map (fun r => r.id) = ["a.py"] ∧
    hasIdL (finalFiles (analyzeFiles repoC1)) "vendor/__init__.py" = false := by
  decide

/-- C1 amended: every serialized relationship has an inventoried source and
an on-disk target, and contains edges also have an inventoried target;
the import targets are guaranteed to exist on disk but not to be
serialized file ids. -/
theorem no_dangling_edges_amended (repo : Repo) (r : RelFull)
    (hr : r ∈ finalRels (analyzeFiles repo)) :
    r.source ∈ idsOf (finalFiles (analyzeFiles repo)) ∧
    r.target ∈ fsPaths repo ∧
    (r.rtype = "contains" → r.target ∈ idsOf (finalFiles (analyzeFiles repo))) := by
  obtain ⟨h₁, h₂, h₃⟩ := endpointInvL_analyzeFiles repo
  unfold finalRels consolidate at hr
  obtain ⟨r₀, hr₀, hmap⟩ := List.mem_map.mp hr
  obtain ⟨s₁, s₂, s₃⟩ := h₃ r₀ hr₀
  rw [← hmap]
  exact ⟨s₁, s₂, s₃⟩

/-- Closed instance of no_dangling_edges_amended on the repoC1 run. -/
theorem no_dangling_edges_amended_witness :
    "a.py" ∈ idsOf (finalFiles (analyzeFiles repoC1)) ∧
    "vendor/__init__.py" ∈ fsPaths repoC1 ∧
    (("import" : String) = "contains" →
      "vendor/__init__.py" ∈ idsOf (finalFiles (analyzeFiles repoC1))) :=
  no_dangling_edges_amended repoC1 ⟨"a.py", "vendor/__init__.py", "import", 1⟩
    (by decide)

/-- Closed instance of import_dedup_count on a five-call sequence with
three registrations of the import a.py to b.py. -/
theorem import_dedup_count_witness :
    0 < 3 ∧ countImportOps opsC2 "a.py" "b.py" = 3 ∧
    ((consolidate (runOps opsC2)).filter fun r =>
        r.source == "a.py" && r.target == "b.py" && r.rtype == "import").length = 1 ∧
    ∀ r ∈ consolidate (runOps opsC2),
      r.source = "a.py" → r.target = "b.py" → r.rtype = "import" → r.strength = 3 := by
  have h := import_dedup_count opsC2 "a.py" "b.py" 3 (by decide) (by decide)
  exact ⟨by decide, by decide, h.1, h.2⟩

/-- takeWhile of an append whose left part satisfies the predicate and whose
junction character does not. -/
theorem takeWhile_append_eq {p : Char → Bool} {u r : List Char} {c : Char}
    (hu : ∀ x ∈ u, p x = true) (hc : p c = false) :
    (u ++ c :: r).takeWhile p = u := by
  induction u with
  | nil =>
    simp only [List.nil_append, List.takeWhile]
    rw [hc]
  | cons x xs ih =>
    simp only [List.cons_append, List.takeWhile]
    rw [hu x (List.mem_cons_self x xs)]
    show x :: List.takeWhile p (xs ++ c :: r) = x :: xs
    rw [ih (fun y hy => hu y (List.mem_cons_of_mem x hy))]

/-- takeWhile of a list all of whose elements satisfy the predicate. -/
theorem takeWhile_all {p : Char → Bool} {l : List Char}
    (h : ∀ x ∈ l, p x = true) : l.takeWhile p = l := by
  induction l with
  | nil => rfl
  | cons x xs ih =>
    simp only [List.takeWhile]
    rw [h x (List.mem_cons_self x xs)]
    show x :: List.takeWhile p xs = x :: xs
    rw [ih (fun y hy => h y (List.mem_cons_of_mem x hy))]

/-- A nonempty list is not Boolean-empty. -/
theorem isEmpty_false_of_ne_nil {l : List Char} (h : l ≠ []) : l.isEmpty = false := by
  cases l with
  | nil => exact absurd rfl h
  | cons x xs => rfl

/-- The credential pattern matches at the head of a well-formed
scheme-credential-host-path string and produces the replacement without the
credential. -/
theorem tryCredMatch_head (scheme u hst q : List Char)
    (hu : u ≠ []) (hua : '@' ∉ u)
    (hh : hst ≠ []) (hhs : '/' ∉ hst)
    (hqn : '\n' ∉ q) :
    tryCredMatch scheme (scheme ++ (u ++ '@' :: (hst ++ '/' :: q))) =
      some (scheme ++ (hst ++ '/' :: q)) := by
  have hpre : scheme.isPrefixOf (scheme ++ (u ++ '@' :: (hst ++ '/' :: q))) = true :=
    List.isPrefixOf_iff_prefix.mpr ⟨u ++ '@' :: (hst ++ '/' :: q), rfl⟩
  have hta : ((u ++ '@' :: (hst ++ '/' :: q)).takeWhile fun c => c ≠ '@') = u :=
    takeWhile_append_eq
      (fun x hx => decide_eq_true (fun he => hua (he ▸ hx))) (by decide)
  have htb : ((hst ++ '/' :: q).takeWhile fun c => c ≠ '/') = hst :=
    takeWhile_append_eq
      (fun x hx => decide_eq_true (fun he => hhs (he ▸ hx))) (by decide)
  have hall : (('/' : Char) :: q).all (fun c => c ≠ '\n') = true := by
    rw [List.all_eq_true]
    intro x hx
    rcases List.mem_cons.mp hx with rfl | hx₂
    · decide
    · exact decide_eq_true (fun he => hqn (he ▸ hx₂))
  unfold tryCredMatch
  rw [if_pos hpre, List.drop_left, hta, isEmpty_false_of_ne_nil hu]
  simp only [Bool.false_eq_true, if_false]
  rw [List.drop_left]
  dsimp only
  rw [if_pos rfl, htb, isEmpty_false_of_ne_nil hh, List.drop_left]
  simp only [Bool.false_eq_true, if_false]
  simp only [hall, eq_self_iff_true, if_true]
  rw [← List.append_assoc]

/-- The credential pattern fails on a string it does not scheme-prefix. -/
theorem tryCredMatch_fail_of_bad_scheme {scheme s₂ : List Char}
    (h : scheme.isPrefixOf s₂ = false) : tryCredMatch scheme s₂ = none := by
  unfold tryCredMatch
  rw [h]
  simp

/-- The credential pattern fails on a string without an at sign. -/
theorem tryCredMatch_none_of_no_at (scheme s₂ : List Char)
    (h : ∀ c ∈ s₂, c ≠ '@') : tryCredMatch scheme s₂ = none := by
  unfold tryCredMatch
  split
  · have hall : ∀ x ∈ s₂.drop scheme.length, (fun c => (c ≠ '@' : Bool)) x = true :=
      fun x hx => decide_eq_true (h x (List.drop_subset scheme.length s₂ hx))
    rw [takeWhile_all hall, List.drop_length]
    split <;> rfl
  · rfl

/-- A pattern that avoids the junction character and contains a character
missing from the left part is not a prefix of left ++ junction :: right. -/
theorem not_prefix_append_cons {pat w z : List Char} {c : Char}
    (hc : c ∉ pat) (hd : ∃ d, d ∈ pat ∧ d ∉ w) :
    ¬ pat <+: (w ++ c :: z) := by
  rintro ⟨t, ht⟩
  rcases List.append_eq_append_iff.mp ht with ⟨a₂, ha₁, _⟩ | ⟨c₂, hc₁, hc₂⟩
  · obtain ⟨d, hd₁, hd₂⟩ := hd
    exact hd₂ (ha₁ ▸ List.mem_append_left a₂ hd₁)
  · cases c₂ with
    | nil =>
      obtain ⟨d, hd₁, hd₂⟩ := hd
      rw [hc₁, List.append_nil] at hd₁
      exact hd₂ hd₁
    | cons c₀ cr =>
      have hceq : c = c₀ := ((List.cons.injEq c z c₀ (cr ++ t)).mp hc₂).1
      exact hc (hc₁ ▸ List.mem_append_right w (hceq ▸ List.mem_cons_self c₀ cr))

/-- Suffixes of an append are suffixes of the right part or a suffix of the
left part glued onto the whole right part. -/
theorem suffix_append_cases {s₂ xs ys : List Char} (h : s₂ <:+ xs ++ ys) :
    s₂ <:+ ys ∨ ∃ w, w <:+ xs ∧ s₂ = w ++ ys := by
  obtain ⟨t, ht⟩ := h
  rcases List.append_eq_append_iff.mp ht with ⟨a₂, ha₁, ha₂⟩ | ⟨c₂, _, hc₂⟩
  · exact Or.inr ⟨a₂, ⟨t, ha₁.symm⟩, ha₂⟩
  · exact Or.inl ⟨c₂, hc₂.symm⟩

/-- A head match ends the substitution scan with the replacement. -/
theorem subCredScan_head {scheme : List Char} {c : Char} {rest out : List Char}
    (hm : tryCredMatch scheme (c :: rest) = some out) :
    subCredScan scheme (c :: rest) = out := by
  simp only [subCredScan]
  rw [hm]

/-- A scan over a string none of whose suffixes match is the identity. -/
theorem subCredScan_id (scheme s : List Char)
    (hno : ∀ s₂, s₂ <:+ s → tryCredMatch scheme s₂ = none) :
    subCredScan scheme s = s := by
  induction s with
  | nil => rfl
  | cons c rest ih =>
    simp only [subCredScan]
    rw [hno (c :: rest) (List.suffix_refl _)]
    rw [ih (fun s₂ hs₂ => hno s₂ (hs₂.trans (List.suffix_cons c rest)))]

/-- A scan with any scheme over an at-sign-free string is the identity. -/
theorem subCredScan_id_of_no_at (scheme s : List Char)
    (h : ∀ c ∈ s, c ≠ '@') : subCredScan scheme s = s :=
  subCredScan_id scheme s
    (fun s₂ hs₂ => tryCredMatch_none_of_no_at scheme s₂ (fun c hc => h c (hs₂.subset hc)))

/-- The https credential pattern never matches anywhere inside a well-formed
ssh URL: every suffix either lacks an at sign, or carries the at sign too
close to its head for the https scheme literal to fit before it. -/
theorem httpsSub_ssh_id (u hst q : List Char)
    (hus : '/' ∉ u) (hha : '@' ∉ hst) (hqa : '@' ∉ q) :
    subCredScan "https://".data ("ssh://".data ++ (u ++ '@' :: (hst ++ '/' :: q))) =
      "ssh://".data ++ (u ++ '@' :: (hst ++ '/' :: q)) := by
  apply subCredScan_id
  intro s₂ hs₂
  rw [show "ssh://".data ++ (u ++ '@' :: (hst ++ '/' :: q)) =
      ("ssh://".data ++ u) ++ '@' :: (hst ++ '/' :: q) from
    (List.append_assoc "ssh://".data u ('@' :: (hst ++ '/' :: q))).symm] at hs₂
  have hbar : ∀ w : List Char, '/' ∉ w →
      tryCredMatch "https://".data (w ++ '@' :: (hst ++ '/' :: q)) = none := by
    intro w hw
    apply tryCredMatch_fail_of_bad_scheme
    rw [Bool.eq_false_iff]
    intro hb
    exact not_prefix_append_cons (by decide)
      ⟨'/', by decide, hw⟩ ( List.isPrefixOf_iff_prefix.mp hb)
  rcases suffix_append_cases hs₂ with hy | ⟨w, hw, rfl⟩
  · rcases (List.suffix_cons_iff).mp hy with rfl | hy₂
    · exact tryCredMatch_fail_of_bad_scheme rfl
    · apply tryCredMatch_none_of_no_at
      intro c hc
      have hc₂ := hy₂.subset hc
      rcases List.mem_append.mp hc₂ with hm | hm
      · exact fun he => hha (he ▸ hm)
      · rcases List.mem_cons.mp hm with rfl | hm₂
        · decide
        · exact fun he => hqa (he ▸ hm₂)
  · rcases suffix_append_cases hw with hwu | ⟨v, hv, rfl⟩
    · exact hbar w (fun hin => hus (hwu.subset hin))
    · have hv₂ := (List.mem_tails v "ssh://".data).mpr hv
      rw [show ("ssh://".data).tails =
        ["ssh://".data, "sh://".data, "h://".data, "://".data,
          "//".data, "/".data, []] from rfl] at hv₂
      simp only [List.mem_cons, List.not_mem_nil, or_false] at hv₂
      rw [List.append_assoc]
      rcases hv₂ with rfl | rfl | rfl | rfl | rfl | rfl | rfl
      · exact tryCredMatch_fail_of_bad_scheme rfl
      · exact tryCredMatch_fail_of_bad_scheme rfl
      · exact tryCredMatch_fail_of_bad_scheme rfl
      · exact tryCredMatch_fail_of_bad_scheme rfl
      · exact tryCredMatch_fail_of_bad_scheme rfl
      · exact tryCredMatch_fail_of_bad_scheme rfl
      · exact hbar u hus

/-- Character-level form of the https sanitization. -/
theorem sanitize_core_https (u hst q : List Char)
    (hu : u ≠ []) (hua : '@' ∉ u)
    (hh : hst ≠ []) (hhs : '/' ∉ hst) (hha : '@' ∉ hst)
    (hqa : '@' ∉ q) (hqn : '\n' ∉ q) :
    subCredScan "ssh://".data
      (subCredScan "https://".data
        ("https://".data ++ (u ++ '@' :: (hst ++ '/' :: q)))) =
      "https://".data ++ (hst ++ '/' :: q) := by
  have hm := tryCredMatch_head "https://".data u hst q hu hua hh hhs hqn
  have h₁ : subCredScan "https://".data
      ("https://".data ++ (u ++ '@' :: (hst ++ '/' :: q))) =
      "https://".data ++ (hst ++ '/' :: q) := subCredScan_head hm
  rw [h₁]
  apply subCredScan_id_of_no_at
  intro c hc
  rcases List.mem_append.mp hc with hm₂ | hm₂
  · intro he
    rw [he] at hm₂
    exact absurd hm₂ (by decide)
  · rcases List.mem_append.mp hm₂ with hm₃ | hm₃
    · exact fun he => hha (he ▸ hm₃)
    · rcases List.mem_cons.mp hm₃ with rfl | hm₄
      · decide
      · exact fun he => hqa (he ▸ hm₄)

/-- Character-level form of the ssh sanitization. -/
theorem sanitize_core_ssh (u hst q : List Char)
    (hu : u ≠ []) (hua : '@' ∉ u) (hus : '/' ∉ u)
    (hh : hst ≠ []) (hhs : '/' ∉ hst) (hha : '@' ∉ hst)
    (hqa : '@' ∉ q) (hqn : '\n' ∉ q) :
    subCredScan "ssh://".data
      (subCredScan "https://".data
        ("ssh://".data ++ (u ++ '@' :: (hst ++ '/' :: q)))) =
      "ssh://".data ++ (hst ++ '/' :: q) := by
  rw [httpsSub_ssh_id u hst q hus hha hqa]
  exact subCredScan_head (tryCredMatch_head "ssh://".data u hst q hu hua hh hhs hqn)

/-- String append acts on the underlying character lists. -/
theorem strData_append (a b : String) : (a ++ b).data = a.data ++ b.data := rfl

/-- C10: for every remote URL of the form scheme://userinfo@host/path (with
userinfo free of at signs and slashes, host free of slashes and at signs,
path free of at signs and newlines), _sanitize_git_url removes exactly the
userinfo@ portion for both the https and the ssh scheme; consequently the
sanitized output - and hence the serialized repository description - is
identical for any two embedded credential strings. -/
theorem sanitize_url_noninterference (u₁ u₂ hst q : String)
    (hu₁ : u₁.data ≠ []) (hu₁a : '@' ∉ u₁.data) (hu₁s : '/' ∉ u₁.data)
    (hu₂ : u₂.data ≠ []) (hu₂a : '@' ∉ u₂.data) (hu₂s : '/' ∉ u₂.data)
    (hh : hst.data ≠ []) (hhs : '/' ∉ hst.data) (hha : '@' ∉ hst.data)
    (hqa : '@' ∉ q.data) (hqn : '\n' ∉ q.data) :
    sanitizeGitUrl ("https://" ++ u₁ ++ "@" ++ hst ++ "/" ++ q) =
      "https://" ++ hst ++ "/" ++ q ∧
    sanitizeGitUrl ("ssh://" ++ u₁ ++ "@" ++ hst ++ "/" ++ q) =
      "ssh://" ++ hst ++ "/" ++ q ∧
    sanitizeGitUrl ("https://" ++ u₁ ++ "@" ++ hst ++ "/" ++ q) =
      sanitizeGitUrl ("https://" ++ u₂ ++ "@" ++ hst ++ "/" ++ q) ∧
    sanitizeGitUrl ("ssh://" ++ u₁ ++ "@" ++ hst ++ "/" ++ q) =
      sanitizeGitUrl ("ssh://" ++ u₂ ++ "@" ++ hst ++ "/" ++ q) := by
  have hgen : ∀ u : String, u.data ≠ [] → '@' ∉ u.data → '/' ∉ u.data →
      sanitizeGitUrl ("https://" ++ u ++ "@" ++ hst ++ "/" ++ q) =
        "https://" ++ hst ++ "/" ++ q ∧
      sanitizeGitUrl ("ssh://" ++ u ++ "@" ++ hst ++ "/" ++ q) =
        "ssh://" ++ hst ++ "/" ++ q := by
    intro u hu hua hus
    constructor
    · unfold sanitizeGitUrl
      apply congrArg String.mk
      rw [show ("https://" ++ u ++ "@" ++ hst ++ "/" ++ q).data =
          "https://".data ++ (u.data ++ '@' :: (hst.data ++ '/' :: q.data)) from by
        simp [strData_append, List.append_assoc]]
      rw [sanitize_core_https u.data hst.data q.data hu hua hh hhs hha hqa hqn]
      simp [strData_append, List.append_assoc]
    · unfold sanitizeGitUrl
      apply congrArg String.mk
      rw [show ("ssh://" ++ u ++ "@" ++ hst ++ "/" ++ q).data =
          "ssh://".data ++ (u.data ++ '@' :: (hst.data ++ '/' :: q.data)) from by
        simp [strData_append, List.append_assoc]]
      rw [sanitize_core_ssh u.data hst.data q.data hu hua hus hh hhs hha hqa hqn]
      simp [strData_append, List.append_assoc]
  obtain ⟨ha₁, hb₁⟩ := hgen u₁ hu₁ hu₁a hu₁s
  obtain ⟨ha₂, hb₂⟩ := hgen u₂ hu₂ hu₂a hu₂s
  exact ⟨ha₁, hb₁, ha₁.trans ha₂.symm, hb₁.trans hb₂.symm⟩

/-- Closed instance of sanitize_url_noninterference with a token credential
and a short credential. -/
theorem sanitize_url_noninterference_witness :
    sanitizeGitUrl ("https://" ++ "user:tok3n" ++ "@" ++ "github.com" ++ "/" ++ "org/repo.git") =
      "https://" ++ "github.com" ++ "/" ++ "org/repo.git" ∧
    sanitizeGitUrl ("ssh://" ++ "user:tok3n" ++ "@" ++ "github.com" ++ "/" ++ "org/repo.git") =
      "ssh://" ++ "github.com" ++ "/" ++ "org/repo.git" ∧
    sanitizeGitUrl ("https://" ++ "user:tok3n" ++ "@" ++ "github.com" ++ "/" ++ "org/repo.git") =
      sanitizeGitUrl ("https://" ++ "u" ++ "@" ++ "github.com" ++ "/" ++ "org/repo.git") ∧
    sanitizeGitUrl ("ssh://" ++ "user:tok3n" ++ "@" ++ "github.com" ++ "/" ++ "org/repo.git") =
      sanitizeGitUrl ("ssh://" ++ "u" ++ "@" ++ "github.com" ++ "/" ++ "org/repo.git") :=
  sanitize_url_noninterference "user:tok3n" "u" "github.com" "org/repo.git"
    (by decide) (by decide) (by decide) (by decide) (by decide) (by decide)
    (by decide) (by decide) (by decide) (by decide) (by decide)

end RepoViz
